import Mathlib

/-!
Shallow embedding of the `tukeyized` library (src/lib.rs): a Tukey
outlier filter over `f64` samples.

Modelling choices:
* `f64` values are modelled exactly: a finite value is a rational
  (`F64.val q`), and the "not a number" value is `F64.nan`.  The
  arithmetic the library performs (subtraction, multiplication by the
  literal `1.5`, addition, halving of a sum) is embedded as exact
  rational arithmetic.
* Rust panics are modelled as `Except.error` with a fixed message per
  panicking site (the source interpolates the offending values into the
  message; the embedding abstracts the message to a constant string).
* `sort_by` with the `partial_cmp`-unwrapping comparator is modelled in
  two steps: `ratsOf` succeeds exactly when no element is NaN (in the
  source, every element of a slice of length ≥ 2 takes part in at least
  one comparison, and any comparison touching a NaN panics), and
  `sortQ` sorts the rational values with a stable merge sort (on
  NaN-free data the source comparator is the total order on the reals).
-/

inductive F64 where
  | val (q : ℚ)
  | nan
  deriving DecidableEq

/-- Message of the panic raised in `trim`'s sort comparator when a NaN is
compared (the source interpolates the two offending values). -/
def nanMsg : String := "Cannot compare values because at least one is NaN"

/-- Message of the panic raised by `middle` on an empty slice. -/
def emptyMsg : String := "Cannot calculate a median of an empty array"

/-- The `f64` operator `>=` against a known-finite bound: any comparison
involving NaN is false. -/
def F64.geQ : F64 → ℚ → Bool
  | .val a, b => decide (b ≤ a)
  | .nan, _ => false

/-- The `f64` operator `<=` against a known-finite bound: any comparison
involving NaN is false. -/
def F64.leQ : F64 → ℚ → Bool
  | .val a, b => decide (a ≤ b)
  | .nan, _ => false

/-- Extracts the rational values of a sample, failing exactly when some
element is NaN; embeds the fail-fast NaN check performed by the sort
comparator in `trim`. -/
def ratsOf : List F64 → Option (List ℚ)
  | [] => some []
  | F64.val q :: rest => (ratsOf rest).map (q :: ·)
  | F64.nan :: _ => none

/-- The sorted copy `order` built in `trim`: ascending stable sort of the
(NaN-free) values. -/
def sortQ (l : List ℚ) : List ℚ := l.mergeSort (fun a b => decide (a ≤ b))

/-- Embeds `middle`: the median of already-sorted values, panicking on an
empty slice.  `values[i]` is rendered as `getD i 0`; every index used is
in bounds whenever the slice is non-empty. -/
def middle (values : List ℚ) : Except String ℚ :=
  if values.length = 0 then .error emptyMsg
  else
    let mid := values.length / 2
    if values.length % 2 = 1 then .ok (values.getD mid 0)
    else .ok ((values.getD (mid - 1) 0 + values.getD mid 0) / 2)

/-- Embeds `hinge`: Tukey-style quartiles of already-sorted values, as the
medians of `values[..mid]` and of `values[mid..]` (even length) or
`values[mid + 1..]` (odd length). -/
def hinge (values : List ℚ) : Except String (ℚ × ℚ) :=
  let mid := values.length / 2
  if values.length % 2 = 0 then
    match middle (values.take mid), middle (values.drop mid) with
    | .ok a, .ok b => .ok (a, b)
    | .error e, _ => .error e
    | .ok _, .error e => .error e
  else
    match middle (values.take mid), middle (values.drop (mid + 1)) with
    | .ok a, .ok b => .ok (a, b)
    | .error e, _ => .error e
    | .ok _, .error e => .error e

/-- Embeds `trim`: short-circuit on fewer than 3 elements, sort a copy
(failing fast on NaN), compute the hinge, derive the inclusive bounds
`min = q1 - 1.5 * range` and `max = q3 + 1.5 * range`, and filter the
original values in order. -/
def trim (values : List F64) : Except String (List F64) :=
  if values.length < 3 then .ok values
  else
    match ratsOf values with
    | none => .error nanMsg
    | some qs =>
      let order := sortQ qs
      match hinge order with
      | .error e => .error e
      | .ok (q1, q3) =>
        let range := q3 - q1
        let min := q1 - (3 / 2 * range)
        let max := q3 + (3 / 2 * range)
        .ok (values.filter (fun x => x.geQ min && x.leQ max))

/-- Embeds the public trait method `tukeyize` on slices and vectors: it
delegates to `trim`. -/
def tukeyize (values : List F64) : Except String (List F64) := trim values

/-! ### Helper lemmas -/

lemma trim_lt_three (S : List F64) (h : S.length < 3) : trim S = .ok S := by
  unfold trim
  rw [if_pos h]

lemma ratsOf_eq_none (S : List F64) (hn : F64.nan ∈ S) : ratsOf S = none := by
  induction S with
  | nil => cases hn
  | cons x rest ih =>
    cases x with
    | nan => rfl
    | val q =>
      have : F64.nan ∈ rest := by
        rcases List.mem_cons.mp hn with h | h
        · cases h
        · exact h
      simp [ratsOf, ih this]

lemma ratsOf_eq_some (S : List F64) (hn : F64.nan ∉ S) :
    ∃ qs : List ℚ, ratsOf S = some qs ∧ S = qs.map F64.val := by
  induction S with
  | nil => exact ⟨[], rfl, rfl⟩
  | cons x rest ih =>
    cases x with
    | nan => exact absurd (List.mem_cons_self _ _) hn
    | val q =>
      obtain ⟨qs, h1, h2⟩ := ih (fun h => hn (List.mem_cons_of_mem _ h))
      exact ⟨q :: qs, by simp [ratsOf, h1], by simp [← h2]⟩

lemma ratsOf_length (S : List F64) (qs : List ℚ) (h : ratsOf S = some qs) :
    qs.length = S.length := by
  induction S generalizing qs with
  | nil => simp [ratsOf] at h; simp [← h]
  | cons x rest ih =>
    cases x with
    | nan => simp [ratsOf] at h
    | val q =>
      simp only [ratsOf, Option.map_eq_some'] at h
      obtain ⟨qs', h1, h2⟩ := h
      simp [← h2, ih qs' h1]

lemma middle_ok_of_ne_nil (l : List ℚ) (h : l.length ≠ 0) : ∃ m, middle l = .ok m := by
  unfold middle
  rw [if_neg h]
  split <;> exact ⟨_, rfl⟩

lemma trim_eq_filter (S : List F64) (qs : List ℚ) (q1 q3 : ℚ) (h3 : ¬ S.length < 3)
    (hq : ratsOf S = some qs) (hh : hinge (sortQ qs) = .ok (q1, q3)) :
    trim S = .ok (S.filter fun x =>
      x.geQ (q1 - (3 / 2 * (q3 - q1))) && x.leQ (q3 + (3 / 2 * (q3 - q1)))) := by
  unfold trim
  rw [if_neg h3, hq]
  simp only [hh]

/-! ### C3, C10, C6, C5 -/

/-- C3: for every sample with fewer than 3 elements, `tukeyize` returns a
copy equal to the input, values and order unchanged, as a defined
short-circuit rather than an error. -/
theorem tukeyize_short_input_identity (S : List F64) (h : S.length < 3) :
    tukeyize S = .ok S :=
  trim_lt_three S h

theorem tukeyize_short_input_identity_witness :
    tukeyize [F64.val 65] = .ok [F64.val 65] :=
  tukeyize_short_input_identity [F64.val 65] (by decide)

/-- C10: for every input of length < 3, `tukeyize` returns a copy of the
input without any error even when the input contains NaN values: the
short-input branch precedes the sort, so the fatal NaN comparison is
reached only for inputs of length ≥ 3. -/
theorem tukeyize_short_input_ignores_nan (S : List F64) (h : S.length < 3)
    (_hn : F64.nan ∈ S) :
    tukeyize S = .ok S ∧ ∀ e, tukeyize S ≠ .error e := by
  refine ⟨trim_lt_three S h, fun e he => ?_⟩
  rw [show tukeyize S = trim S from rfl, trim_lt_three S h] at he
  cases he

theorem tukeyize_short_input_ignores_nan_witness :
    tukeyize [F64.nan, F64.val 1] = .ok [F64.nan, F64.val 1] ∧
    tukeyize [F64.nan, F64.val 1] ≠ .error nanMsg :=
  ⟨(tukeyize_short_input_ignores_nan [F64.nan, F64.val 1] (by decide) (by decide)).1,
   (tukeyize_short_input_ignores_nan [F64.nan, F64.val 1] (by decide) (by decide)).2 nanMsg⟩

/-- C6: for every sample of length ≥ 3 containing a NaN, `tukeyize` aborts
with the fatal comparison error raised while sorting and returns no
result; the NaN is neither silently excluded nor included. -/
theorem tukeyize_fatal_on_nan (S : List F64) (h3 : 3 ≤ S.length) (hn : F64.nan ∈ S) :
    tukeyize S = .error nanMsg := by
  rw [show tukeyize S = trim S from rfl]
  unfold trim
  rw [if_neg (by omega), ratsOf_eq_none S hn]

theorem tukeyize_fatal_on_nan_witness :
    tukeyize [F64.val 1, F64.nan, F64.val 2] = .error nanMsg :=
  tukeyize_fatal_on_nan [F64.val 1, F64.nan, F64.val 2] (by decide) (by decide)

/-- C5: for every non-empty ascending-sorted sequence, `middle` returns the
element at index ⌊n/2⌋ when the length n is odd, and the arithmetic mean
of the elements at indices n/2 - 1 and n/2 when n is even. -/
theorem middle_median_of_sorted (l : List ℚ) (_hs : List.Sorted (· ≤ ·) l)
    (hne : l ≠ []) :
    (l.length % 2 = 1 → middle l = .ok (l.getD (l.length / 2) 0)) ∧
    (l.length % 2 = 0 → middle l =
      .ok ((l.getD (l.length / 2 - 1) 0 + l.getD (l.length / 2) 0) / 2)) := by
  have h0 : l.length ≠ 0 := fun h => hne (List.length_eq_zero.mp h)
  constructor
  · intro hp
    unfold middle
    rw [if_neg h0]
    simp [hp]
  · intro hp
    unfold middle
    rw [if_neg h0]
    simp [hp]

theorem middle_median_of_sorted_witness : middle [(1 : ℚ), 2, 3] = .ok 2 :=
  (middle_median_of_sorted [1, 2, 3] (by decide) (by decide)).1 (by decide)


/-! ### More helpers: hinge success, slices as index ranges -/

lemma hinge_ok_of_three_le (l : List ℚ) (h3 : 3 ≤ l.length) :
    ∃ p, hinge l = .ok p := by
  obtain ⟨a, ha⟩ := middle_ok_of_ne_nil (l.take (l.length / 2))
    (by simp only [List.length_take]; omega)
  by_cases hp : l.length % 2 = 0
  · obtain ⟨b, hb⟩ := middle_ok_of_ne_nil (l.drop (l.length / 2))
      (by simp only [List.length_drop]; omega)
    refine ⟨(a, b), ?_⟩
    unfold hinge
    rw [if_pos hp, ha, hb]
  · obtain ⟨b, hb⟩ := middle_ok_of_ne_nil (l.drop (l.length / 2 + 1))
      (by simp only [List.length_drop]; omega)
    refine ⟨(a, b), ?_⟩
    unfold hinge
    rw [if_neg hp, ha, hb]

lemma take_eq_rangeMap (l : List ℚ) (m : ℕ) (hm : m ≤ l.length) :
    l.take m = (List.range m).map fun i => l.getD i 0 := by
  apply List.ext_getElem
  · simp [List.length_take]; omega
  · intro i h1 h2
    have hi : i < l.length := by
      simp only [List.length_take] at h1; omega
    simp only [List.getElem_map, List.getElem_range, List.getElem_take]
    rw [List.getD_eq_getElem _ _ hi]

lemma drop_eq_rangeMap (l : List ℚ) (k : ℕ) (hk : k ≤ l.length) :
    l.drop k = (List.range (l.length - k)).map fun i => l.getD (k + i) 0 := by
  apply List.ext_getElem
  · simp [List.length_drop]
  · intro i h1 h2
    have hi : k + i < l.length := by
      simp only [List.length_drop] at h1; omega
    simp only [List.getElem_map, List.getElem_range, List.getElem_drop]
    rw [List.getD_eq_getElem _ _ hi]

/-! ### C7 -/

/-- C7: through the public `tukeyize` operation the median primitive is
never invoked on an empty slice: for every sorted copy of length ≥ 3 the
hinge computation succeeds, and consequently the only error `tukeyize`
can ever produce is the NaN comparison error, never the empty-median
error. -/
theorem hinge_median_never_empty :
    (∀ l : List ℚ, 3 ≤ l.length → (hinge l).isOk = true) ∧
    (∀ (S : List F64) (e : String), tukeyize S = .error e → e = nanMsg) := by
  have h1 : ∀ l : List ℚ, 3 ≤ l.length → (hinge l).isOk = true := by
    intro l h3
    obtain ⟨p, hp⟩ := hinge_ok_of_three_le l h3
    rw [hp]
    rfl
  refine ⟨h1, fun S e he => ?_⟩
  rw [show tukeyize S = trim S from rfl] at he
  unfold trim at he
  by_cases hlen : S.length < 3
  · rw [if_pos hlen] at he
    cases he
  · rw [if_neg hlen] at he
    cases hq : ratsOf S with
    | none =>
      rw [hq] at he
      exact (Except.error.inj he).symm
    | some qs =>
      rw [hq] at he
      obtain ⟨⟨a, b⟩, hp⟩ := hinge_ok_of_three_le (sortQ qs)
        (by rw [sortQ, List.length_mergeSort, ratsOf_length S qs hq]; omega)
      simp [hp] at he

theorem hinge_median_never_empty_witness : (hinge [(1 : ℚ), 2, 3]).isOk = true :=
  hinge_median_never_empty.1 [1, 2, 3] (by decide)

/-! ### C4 -/

/-- Lower half as the spec words it: the elements at indices [0, mid) of
the sorted sequence, where mid = ⌊n/2⌋. -/
def lowerHalfSpec (l : List ℚ) : List ℚ :=
  (List.range (l.length / 2)).map fun i => l.getD i 0

/-- Upper half as the spec words it: the elements at indices [mid, n) when
n is even, and at indices [mid + 1, n) when n is odd (the middle element
excluded from both halves). -/
def upperHalfSpec (l : List ℚ) : List ℚ :=
  if l.length % 2 = 0 then
    (List.range (l.length - l.length / 2)).map fun i => l.getD (l.length / 2 + i) 0
  else
    (List.range (l.length - (l.length / 2 + 1))).map fun i =>
      l.getD (l.length / 2 + 1 + i) 0

/-- C4: for every ascending-sorted sequence of length ≥ 3, `hinge` returns
the pair (median of the lower half, median of the upper half), the halves
being the index ranges [0, mid) and [mid, n) for even n, and [0, mid) and
[mid + 1, n) for odd n, with mid = ⌊n/2⌋. -/
theorem hinge_median_of_halves (l : List ℚ) (h3 : 3 ≤ l.length)
    (_hs : List.Sorted (· ≤ ·) l) (q1 q3 : ℚ) (hh : hinge l = .ok (q1, q3)) :
    middle (lowerHalfSpec l) = .ok q1 ∧ middle (upperHalfSpec l) = .ok q3 := by
  have hlow : lowerHalfSpec l = l.take (l.length / 2) :=
    (take_eq_rangeMap l _ (by omega)).symm
  obtain ⟨a, ha⟩ := middle_ok_of_ne_nil (l.take (l.length / 2))
    (by simp only [List.length_take]; omega)
  unfold hinge at hh
  by_cases hp : l.length % 2 = 0
  · have hup : upperHalfSpec l = l.drop (l.length / 2) := by
      rw [upperHalfSpec, if_pos hp]
      exact (drop_eq_rangeMap l _ (by omega)).symm
    obtain ⟨b, hb⟩ := middle_ok_of_ne_nil (l.drop (l.length / 2))
      (by simp only [List.length_drop]; omega)
    rw [if_pos hp, ha, hb] at hh
    obtain ⟨rfl, rfl⟩ : a = q1 ∧ b = q3 := by
      have := Except.ok.inj hh
      exact ⟨congrArg Prod.fst this, congrArg Prod.snd this⟩
    exact ⟨hlow ▸ ha, hup ▸ hb⟩
  · have hup : upperHalfSpec l = l.drop (l.length / 2 + 1) := by
      rw [upperHalfSpec, if_neg hp]
      exact (drop_eq_rangeMap l _ (by omega)).symm
    obtain ⟨b, hb⟩ := middle_ok_of_ne_nil (l.drop (l.length / 2 + 1))
      (by simp only [List.length_drop]; omega)
    rw [if_neg hp, ha, hb] at hh
    obtain ⟨rfl, rfl⟩ : a = q1 ∧ b = q3 := by
      have := Except.ok.inj hh
      exact ⟨congrArg Prod.fst this, congrArg Prod.snd this⟩
    exact ⟨hlow ▸ ha, hup ▸ hb⟩

theorem hinge_median_of_halves_witness :
    middle (lowerHalfSpec [(1 : ℚ), 2, 3]) = .ok 1 ∧
    middle (upperHalfSpec [(1 : ℚ), 2, 3]) = .ok 3 :=
  hinge_median_of_halves [1, 2, 3] (by decide) (by decide) 1 3 (by rfl)

/-! ### C1: zero interquartile range -/

lemma sortQ_of_sorted (l : List ℚ) (h : List.Sorted (· ≤ ·) l) : sortQ l = l := by
  apply List.mergeSort_of_sorted
  exact List.Pairwise.imp (fun hab => decide_eq_true hab) h

lemma ratsOf_replicate (n : ℕ) (q : ℚ) :
    ratsOf (List.replicate n (F64.val q)) = some (List.replicate n q) := by
  induction n with
  | zero => rfl
  | succ k ih => simp [List.replicate_succ, ratsOf, ih]

lemma middle_replicate (n : ℕ) (q : ℚ) (h : 1 ≤ n) :
    middle (List.replicate n q) = .ok q := by
  have hget : ∀ i, i < n → (List.replicate n q).getD i 0 = q := fun i hi => by
    rw [List.getD_eq_getElem _ _ (by simpa using hi)]
    exact List.getElem_replicate ..
  unfold middle
  simp only [List.length_replicate]
  rw [if_neg (by omega)]
  by_cases hp : n % 2 = 1
  · rw [if_pos hp, hget _ (by omega)]
  · rw [if_neg hp, hget _ (by omega), hget _ (by omega)]
    have hq : (q + q) / 2 = q := by ring
    rw [hq]

lemma hinge_replicate (n : ℕ) (q : ℚ) (h3 : 3 ≤ n) :
    hinge (List.replicate n q) = .ok (q, q) := by
  unfold hinge
  simp only [List.length_replicate, List.take_replicate, List.drop_replicate]
  by_cases hp : n % 2 = 0
  · rw [if_pos hp, middle_replicate _ _ (by omega), middle_replicate _ _ (by omega)]
  · rw [if_neg hp, middle_replicate _ _ (by omega), middle_replicate _ _ (by omega)]

def c1Input : List F64 :=
  [F64.val 0, F64.val 1, F64.val 1, F64.val 1, F64.val 1, F64.val 2]

/-- C1 counterexample: the sample [0, 1, 1, 1, 1, 2] has hinge values
Q1 = Q3 = 1 (zero interquartile range), yet `tukeyize` removes the
elements 0 and 2: the result is [1, 1, 1, 1], not the original sample. -/
theorem tukeyize_zero_iqr_counterexample :
    ratsOf c1Input = some [0, 1, 1, 1, 1, 2] ∧
    hinge (sortQ [0, 1, 1, 1, 1, 2]) = .ok (1, 1) ∧
    tukeyize c1Input = .ok [F64.val 1, F64.val 1, F64.val 1, F64.val 1] ∧
    tukeyize c1Input ≠ .ok c1Input := by
  have hsort : sortQ [0, 1, 1, 1, 1, 2] = [0, 1, 1, 1, 1, 2] :=
    sortQ_of_sorted _ (by decide)
  have hq : ratsOf c1Input = some [0, 1, 1, 1, 1, 2] := rfl
  have hh : hinge (sortQ [0, 1, 1, 1, 1, 2]) = .ok (1, 1) := by
    rw [hsort]
    rfl
  have ht := trim_eq_filter c1Input [0, 1, 1, 1, 1, 2] 1 1 (by decide) hq hh
  have hb1 : (1 : ℚ) - 3 / 2 * (1 - 1) = 1 := by norm_num
  have hb2 : (1 : ℚ) + 3 / 2 * (1 - 1) = 1 := by norm_num
  simp only [hb1, hb2] at ht
  have hfilter : c1Input.filter (fun x => x.geQ 1 && x.leQ 1) =
      [F64.val 1, F64.val 1, F64.val 1, F64.val 1] := by decide
  rw [hfilter] at ht
  refine ⟨hq, hh, ht, ?_⟩
  show trim c1Input ≠ Except.ok c1Input
  rw [ht]
  intro hcontra
  exact absurd (Except.ok.inj hcontra) (by decide)

/-- C1 amended: a sample all of whose values are identical (the spec's own
example of zero interquartile range) is returned unchanged by `tukeyize`;
in general a zero interquartile range only guarantees that the values
equal to the common hinge value are kept. -/
theorem tukeyize_constant_sample (q : ℚ) (n : ℕ) :
    tukeyize (List.replicate n (F64.val q)) = .ok (List.replicate n (F64.val q)) := by
  rw [show tukeyize (List.replicate n (F64.val q)) = trim (List.replicate n (F64.val q))
    from rfl]
  by_cases hn : n < 3
  · exact trim_lt_three _ (by simpa using hn)
  · have hsort : sortQ (List.replicate n q) = List.replicate n q :=
      sortQ_of_sorted _ (by
        show List.Pairwise (· ≤ ·) (List.replicate n q)
        exact List.pairwise_replicate.mpr (Or.inr le_rfl))
    have hh : hinge (sortQ (List.replicate n q)) = .ok (q, q) := by
      rw [hsort]
      exact hinge_replicate n q (by omega)
    have ht := trim_eq_filter (List.replicate n (F64.val q)) (List.replicate n q) q q
      (by simpa using hn) (ratsOf_replicate n q) hh
    rw [ht]
    congr 1
    apply List.filter_eq_self.mpr
    intro a ha
    rw [List.eq_of_mem_replicate ha]
    have hb : q - 3 / 2 * (q - q) = q := by ring
    have hb2 : q + 3 / 2 * (q - q) = q := by ring
    simp [F64.geQ, F64.leQ, hb, hb2]

/-! ### C2: the filtered output -/

/-- Inlier predicate as the spec words it: `min ≤ x ≤ max` inclusive, with
`min = Q1 - 1.5*(Q3 - Q1)` and `max = Q3 + 1.5*(Q3 - Q1)`; NaN satisfies
neither bound. -/
def inlier (q1 q3 : ℚ) : F64 → Bool
  | .val v => decide (q1 - 3 / 2 * (q3 - q1) ≤ v ∧ v ≤ q3 + 3 / 2 * (q3 - q1))
  | .nan => false

/-- C2: for every NaN-free sample of length ≥ 3, `tukeyize` returns exactly
the elements of the original, unsorted sample lying within the inclusive
Tukey fences computed from the hinge of the sorted copy, in original
order with duplicate multiplicities preserved; consequently the output is
a sublist of the input, every output element is an input element, and the
output is no longer than the input. -/
theorem tukeyize_filters_by_fences (S : List F64) (qs : List ℚ) (q1 q3 : ℚ)
    (h3 : 3 ≤ S.length) (hq : ratsOf S = some qs)
    (hh : hinge (sortQ qs) = .ok (q1, q3)) :
    tukeyize S = .ok (S.filter (inlier q1 q3)) ∧
    (S.filter (inlier q1 q3)).Sublist S ∧
    S.filter (inlier q1 q3) ⊆ S ∧
    (S.filter (inlier q1 q3)).length ≤ S.length := by
  have ht := trim_eq_filter S qs q1 q3 (by omega) hq hh
  have hpred : (fun x : F64 =>
      x.geQ (q1 - (3 / 2 * (q3 - q1))) && x.leQ (q3 + (3 / 2 * (q3 - q1)))) =
      inlier q1 q3 := by
    funext x
    cases x with
    | val v => simp [F64.geQ, F64.leQ, inlier]
    | nan => rfl
  rw [hpred] at ht
  exact ⟨ht, List.filter_sublist S, List.filter_subset' S,
    List.length_filter_le _ S⟩

lemma sortQ_sorted (l : List ℚ) : List.Sorted (· ≤ ·) (sortQ l) := by
  have h : (l.mergeSort fun a b => decide (a ≤ b)).Pairwise
      fun a b => decide (a ≤ b) = true := by
    apply List.sorted_mergeSort
    · intro a b c hab hbc
      simp only [decide_eq_true_eq] at *
      exact le_trans hab hbc
    · intro a b
      simp only [Bool.or_eq_true, decide_eq_true_eq]
      exact le_total a b
  exact List.Pairwise.imp (fun hab => of_decide_eq_true hab) h

lemma sortQ_eq (l m : List ℚ) (hperm : l.Perm m) (hm : List.Sorted (· ≤ ·) m) :
    sortQ l = m :=
  List.eq_of_perm_of_sorted ((List.mergeSort_perm l _).trans hperm)
    (sortQ_sorted l) hm

theorem tukeyize_filters_by_fences_witness :
    tukeyize [F64.val 3, F64.val 1, F64.val 2] =
      .ok ([F64.val 3, F64.val 1, F64.val 2].filter (inlier 1 3)) ∧
    ([F64.val 3, F64.val 1, F64.val 2].filter (inlier 1 3)).Sublist
      [F64.val 3, F64.val 1, F64.val 2] ∧
    [F64.val 3, F64.val 1, F64.val 2].filter (inlier 1 3) ⊆
      [F64.val 3, F64.val 1, F64.val 2] ∧
    ([F64.val 3, F64.val 1, F64.val 2].filter (inlier 1 3)).length ≤
      ([F64.val 3, F64.val 1, F64.val 2] : List F64).length :=
  tukeyize_filters_by_fences [F64.val 3, F64.val 1, F64.val 2] [3, 1, 2] 1 3
    (by decide) (by decide)
    (by rw [sortQ_eq [3, 1, 2] [1, 2, 3] (by decide) (by decide)]; rfl)

/-! ### C8: ordering of hinge values and bounds -/

lemma middle_odd (l : List ℚ) (h0 : l.length ≠ 0) (hp : l.length % 2 = 1) :
    middle l = .ok (l.getD (l.length / 2) 0) := by
  unfold middle
  rw [if_neg h0]
  simp [hp]

lemma middle_even (l : List ℚ) (h0 : l.length ≠ 0) (hp : l.length % 2 = 0) :
    middle l = .ok ((l.getD (l.length / 2 - 1) 0 + l.getD (l.length / 2) 0) / 2) := by
  unfold middle
  rw [if_neg h0]
  simp [hp]

lemma getD_mem (l : List ℚ) (i : ℕ) (hi : i < l.length) : l.getD i 0 ∈ l := by
  rw [List.getD_eq_getElem _ _ hi]
  exact List.getElem_mem hi

lemma sorted_getD_le (l : List ℚ) (hs : List.Sorted (· ≤ ·) l) (i j : ℕ)
    (hij : i ≤ j) (hj : j < l.length) : l.getD i 0 ≤ l.getD j 0 := by
  have hi : i < l.length := lt_of_le_of_lt hij hj
  rw [List.getD_eq_getElem _ _ hi, List.getD_eq_getElem _ _ hj]
  rcases eq_or_lt_of_le hij with rfl | hlt
  · exact le_rfl
  · have h := hs.rel_get_of_lt
      (show (⟨i, hi⟩ : Fin l.length) < ⟨j, hj⟩ from Fin.mk_lt_mk.mpr hlt)
    simpa using h

lemma middle_between (l : List ℚ) (hs : List.Sorted (· ≤ ·) l) (m : ℚ)
    (hm : middle l = .ok m) :
    ∃ a, a ∈ l ∧ a ≤ m ∧ ∃ b, b ∈ l ∧ m ≤ b := by
  have h0 : l.length ≠ 0 := by
    intro h
    rw [middle, if_pos h] at hm
    cases hm
  by_cases hp : l.length % 2 = 1
  · rw [middle_odd l h0 hp] at hm
    have hm' := Except.ok.inj hm
    refine ⟨m, ?_, le_rfl, m, ?_, le_rfl⟩ <;>
      exact hm' ▸ getD_mem l _ (by omega)
  · have hp' : l.length % 2 = 0 := by omega
    rw [middle_even l h0 hp'] at hm
    have hm' := Except.ok.inj hm
    have hab : l.getD (l.length / 2 - 1) 0 ≤ l.getD (l.length / 2) 0 :=
      sorted_getD_le l hs _ _ (by omega) (by omega)
    refine ⟨l.getD (l.length / 2 - 1) 0, getD_mem l _ (by omega), ?_,
      l.getD (l.length / 2) 0, getD_mem l _ (by omega), ?_⟩
    · rw [← hm']
      linarith
    · rw [← hm']
      linarith

lemma hinge_parts (l : List ℚ) (h3 : 3 ≤ l.length) (q1 q3 : ℚ)
    (hh : hinge l = .ok (q1, q3)) :
    middle (l.take (l.length / 2)) = .ok q1 ∧
    ((l.length % 2 = 0 ∧ middle (l.drop (l.length / 2)) = .ok q3) ∨
     (l.length % 2 = 1 ∧ middle (l.drop (l.length / 2 + 1)) = .ok q3)) := by
  obtain ⟨a, ha⟩ := middle_ok_of_ne_nil (l.take (l.length / 2))
    (by simp only [List.length_take]; omega)
  unfold hinge at hh
  by_cases hp : l.length % 2 = 0
  · obtain ⟨b, hb⟩ := middle_ok_of_ne_nil (l.drop (l.length / 2))
      (by simp only [List.length_drop]; omega)
    rw [if_pos hp, ha, hb] at hh
    have h2 := Except.ok.inj hh
    have ha2 : a = q1 := congrArg Prod.fst h2
    have hb2 : b = q3 := congrArg Prod.snd h2
    exact ⟨ha2 ▸ ha, Or.inl ⟨hp, hb2 ▸ hb⟩⟩
  · obtain ⟨b, hb⟩ := middle_ok_of_ne_nil (l.drop (l.length / 2 + 1))
      (by simp only [List.length_drop]; omega)
    rw [if_neg hp, ha, hb] at hh
    have h2 := Except.ok.inj hh
    have ha2 : a = q1 := congrArg Prod.fst h2
    have hb2 : b = q3 := congrArg Prod.snd h2
    exact ⟨ha2 ▸ ha, Or.inr ⟨by omega, hb2 ▸ hb⟩⟩

/-- C8: for every ascending-sorted NaN-free sequence of length ≥ 3, the
hinge values and the derived Tukey fences satisfy
min ≤ Q1 ≤ Q3 ≤ max with min = Q1 - 1.5*(Q3 - Q1) and
max = Q3 + 1.5*(Q3 - Q1). -/
theorem hinge_bounds_ordered (l : List ℚ) (hs : List.Sorted (· ≤ ·) l)
    (h3 : 3 ≤ l.length) (q1 q3 : ℚ) (hh : hinge l = .ok (q1, q3)) :
    q1 - 3 / 2 * (q3 - q1) ≤ q1 ∧ q1 ≤ q3 ∧ q3 ≤ q3 + 3 / 2 * (q3 - q1) := by
  have hsplit : l.take (l.length / 2) ++ l.drop (l.length / 2) = l :=
    List.take_append_drop _ _
  have hcross : ∀ x ∈ l.take (l.length / 2), ∀ y ∈ l.drop (l.length / 2), x ≤ y := by
    have hp : List.Pairwise (· ≤ ·) (l.take (l.length / 2) ++ l.drop (l.length / 2)) := by
      rw [hsplit]
      exact hs
    exact (List.pairwise_append.mp hp).2.2
  obtain ⟨hq1, hrest⟩ := hinge_parts l h3 q1 q3 hh
  have hlow : List.Sorted (· ≤ ·) (l.take (l.length / 2)) :=
    List.Pairwise.sublist (List.take_sublist _ _) hs
  obtain ⟨a1, _, _, b1, hb1mem, hb1⟩ := middle_between _ hlow q1 hq1
  have h13 : q1 ≤ q3 := by
    rcases hrest with ⟨hp, hq3⟩ | ⟨hp, hq3⟩
    · have hup : List.Sorted (· ≤ ·) (l.drop (l.length / 2)) :=
        List.Pairwise.sublist (List.drop_sublist _ _) hs
      obtain ⟨a2, ha2mem, ha2, b2, _, _⟩ := middle_between _ hup q3 hq3
      exact le_trans hb1 (le_trans (hcross b1 hb1mem a2 ha2mem) ha2)
    · have hup : List.Sorted (· ≤ ·) (l.drop (l.length / 2 + 1)) :=
        List.Pairwise.sublist (List.drop_sublist _ _) hs
      obtain ⟨a2, ha2mem, ha2, b2, _, _⟩ := middle_between _ hup q3 hq3
      have ha2mem' : a2 ∈ l.drop (l.length / 2) :=
        List.drop_subset_drop_left l (Nat.le_succ _) ha2mem
      exact le_trans hb1 (le_trans (hcross b1 hb1mem a2 ha2mem') ha2)
  exact ⟨by linarith, h13, by linarith⟩

theorem hinge_bounds_ordered_witness :
    (1 : ℚ) - 3 / 2 * (3 - 1) ≤ 1 ∧ (1 : ℚ) ≤ 3 ∧ (3 : ℚ) ≤ 3 + 3 / 2 * (3 - 1) :=
  hinge_bounds_ordered [1, 2, 3] (by decide) (by decide) 1 3 (by rfl)

theorem tukeyize_constant_sample_witness :
    tukeyize (List.replicate 4 (F64.val 5)) = .ok (List.replicate 4 (F64.val 5)) :=
  tukeyize_constant_sample 5 4
